import Mathlib

/-!
Verification of the job-analyzer ingestion pipeline against its design notes.

The Python sources are embedded shallowly:

* `src/components/ollama_analyzer.py` — the retry loops of `analyze_image` and
  `analyze_text` (the remote HTTP call is abstracted as an oracle mapping each
  1-indexed attempt to its outcome), and `parse_json_response` together with a
  faithful model of the regex sweep it performs.
* `src/components/image_converter.py` — the color-mode conversion and the
  verbose size-report branch of `convert_to_webp` (the PIL WebP encoder is
  abstracted as a function of the final mode and the quality).
* `src/app2.py` — the shared work-queue state (`app_state`), the operations
  `upload_file`, `process_file` (split into its two locked sections),
  `queue_processor` and `clear_queue`, as a transition system.
* `src/batch_image_processor.py` — `add_file`, the `process_queue` loop
  iteration with its pause check, `pause`/`resume`.
-/

set_option maxHeartbeats 1000000

namespace JobAnalyzer

/-! ## Inference client retry loop (src/components/ollama_analyzer.py)

Both `OllamaAnalyzer.analyze_image` (lines 174-217) and
`OllamaAnalyzer.analyze_text` (lines 266-309) run the same loop:

    intento = 0
    while max_retries is None or intento < max_retries:
        intento += 1
        try: ... return response.json()
        except (...):
            if max_retries is not None and intento >= max_retries:
                raise Exception(f"Máximo de ... reintentos alcanzado")
            time.sleep(retry_delay)

We embed the finite-`max_retries` case.  The remote call of attempt `i`
(1-indexed) is abstracted as `oracle i : Except String String`: `.error m`
models a transport error, a non-200 status or an empty body (all caught by the
same `except` clause), `.ok r` models a successful `response.json()`. -/

/-- The message of the exception raised on exhaustion:
`f"Máximo de {max_retries} reintentos alcanzado"` (lines 214 and 306). -/
def exhaustMsg (max_retries : Nat) : String :=
  "Máximo de " ++ toString max_retries ++ " reintentos alcanzado"

/-- The retry loop, structurally recursive on `remaining = max_retries - intento`
(the loop guard `intento < max_retries` holds iff `remaining > 0`).
`none` models the Python function falling off the end of the `while` loop and
implicitly returning `None`; `some (.ok r)` models `return response.json()`;
`some (.error m)` models an exception propagating to the caller. -/
def retryGo (oracle : Nat → Except String String) (max_retries : Nat) :
    Nat → Nat → Option (Except String String)
  | 0, _ => none
  | remaining + 1, intento =>
    match oracle (intento + 1) with
    | Except.ok r => some (Except.ok r)
    | Except.error _ =>
      if max_retries ≤ intento + 1 then
        some (Except.error (exhaustMsg max_retries))
      else
        retryGo oracle max_retries remaining (intento + 1)

/-- `OllamaAnalyzer.analyze_image` with finite `max_retries`, remote call
abstracted as `oracle`. -/
def analyze_image (oracle : Nat → Except String String) (max_retries : Nat) :
    Option (Except String String) :=
  retryGo oracle max_retries max_retries 0

/-- `OllamaAnalyzer.analyze_text` with finite `max_retries`; its retry loop is
identical to the one of `analyze_image`. -/
def analyze_text (oracle : Nat → Except String String) (max_retries : Nat) :
    Option (Except String String) :=
  retryGo oracle max_retries max_retries 0

lemma retryGo_exhaust (oracle : Nat → Except String String) (max_retries : Nat) :
    ∀ remaining intento, remaining + intento = max_retries → 1 ≤ remaining →
    (∀ i, intento < i → i ≤ max_retries → ∃ e, oracle i = Except.error e) →
    retryGo oracle max_retries remaining intento
      = some (Except.error (exhaustMsg max_retries)) := by
  intro remaining
  induction remaining with
  | zero => intro intento _ h1 _; omega
  | succ k ih =>
    intro intento hsum _ hfail
    obtain ⟨e, he⟩ := hfail (intento + 1) (by omega) (by omega)
    by_cases hle : max_retries ≤ intento + 1
    · simp [retryGo, he, hle]
    · have hk : 1 ≤ k := by omega
      simp only [retryGo, he, if_neg hle]
      exact ih (intento + 1) (by omega) hk (fun i hi hi2 => hfail i (by omega) hi2)

lemma retryGo_success (oracle : Nat → Except String String) (N : Nat) (r : String)
    (hfail : ∀ i, 1 ≤ i → i ≤ N → ∃ e, oracle i = Except.error e)
    (hok : oracle (N + 1) = Except.ok r) :
    ∀ remaining intento, remaining + intento = N + 1 → intento ≤ N →
    retryGo oracle (N + 1) remaining intento = some (Except.ok r) := by
  intro remaining
  induction remaining with
  | zero => intro intento h hle; omega
  | succ k ih =>
    intro intento hsum hle
    by_cases hN : intento = N
    · subst hN
      simp [retryGo, hok]
    · obtain ⟨e, he⟩ := hfail (intento + 1) (by omega) (by omega)
      have hlt : ¬ (N + 1 ≤ intento + 1) := by omega
      simp only [retryGo, he, if_neg hlt]
      exact ih (intento + 1) (by omega) (by omega)

/-- C1: if the endpoint fails on exactly the first `N ≥ 1` attempts and would
succeed on attempt `N + 1`, then `analyze_image`/`analyze_text` with
`max_retries = N + 1` return the successful response, and with
`max_retries = N` they raise the exhaustion error; attempts are strictly
sequential and 1-indexed (attempt `i` consults `oracle i`). -/
theorem retry_bound (N : Nat) (oracle : Nat → Except String String) (r : String)
    (hN : 1 ≤ N)
    (hfail : ∀ i, 1 ≤ i → i ≤ N → ∃ e, oracle i = Except.error e)
    (hok : oracle (N + 1) = Except.ok r) :
    analyze_image oracle (N + 1) = some (Except.ok r)
  ∧ analyze_image oracle N = some (Except.error (exhaustMsg N))
  ∧ analyze_text oracle (N + 1) = some (Except.ok r)
  ∧ analyze_text oracle N = some (Except.error (exhaustMsg N)) := by
  have hsucc : retryGo oracle (N + 1) (N + 1) 0 = some (Except.ok r) :=
    retryGo_success oracle N r hfail hok (N + 1) 0 (by omega) (by omega)
  have hexh : retryGo oracle N N 0 = some (Except.error (exhaustMsg N)) :=
    retryGo_exhaust oracle N N 0 (by omega) hN
      (fun i hi hi2 => hfail i (by omega) hi2)
  exact ⟨hsucc, hexh, hsucc, hexh⟩

/-- Oracle that fails on attempt 1 and succeeds afterwards. -/
def oracleW : Nat → Except String String :=
  fun i => if i = 1 then Except.error "boom" else Except.ok "resp"

/-- Witness for `retry_bound` at `N = 1`. -/
theorem retry_bound_witness :
    analyze_image oracleW 2 = some (Except.ok "resp")
  ∧ analyze_image oracleW 1 = some (Except.error (exhaustMsg 1)) := by
  have h := retry_bound 1 oracleW "resp" (by omega)
    (fun i h1 h2 => by
      have hi : i = 1 := by omega
      subst hi
      exact ⟨"boom", rfl⟩)
    (by rfl)
  exact ⟨h.1, h.2.1⟩

/-- Oracle whose only attempt fails with a distinctive transport message. -/
def oracleC2 : Nat → Except String String :=
  fun _ => Except.error "fallo de red 500"

/-- `true` iff `needle` occurs as a contiguous run inside `hay`. -/
def startsWithChars : List Char → List Char → Bool
  | [], _ => true
  | _ :: _, [] => false
  | a :: as, b :: bs => a == b && startsWithChars as bs

/-- Substring occurrence check used to state "the message is contained". -/
def hasSub (needle : List Char) : List Char → Bool
  | [] => startsWithChars needle []
  | c :: rest => startsWithChars needle (c :: rest) || hasSub needle rest

/-- C2 counterexample: with one attempt failing as `"fallo de red 500"`, the
raised exception is the fixed exhaustion message; the last underlying error's
message is not contained in it. -/
theorem retry_last_error_cex :
    analyze_image oracleC2 1 = some (Except.error (exhaustMsg 1))
  ∧ hasSub "fallo de red 500".toList (exhaustMsg 1).toList = false := by
  constructor
  · rfl
  · rfl

/-- C2 (amended): for every finite `max_retries ≥ 1`, when all attempts fail
the exception raised by `analyze_image`/`analyze_text` is exactly the fixed
message `exhaustMsg max_retries`, which states the retry bound and does not
carry the last underlying error (the underlying error is only printed). -/
theorem retry_exhaust_message (oracle : Nat → Except String String)
    (max_retries : Nat) (hmax : 1 ≤ max_retries)
    (hfail : ∀ i, 1 ≤ i → i ≤ max_retries → ∃ e, oracle i = Except.error e) :
    analyze_image oracle max_retries = some (Except.error (exhaustMsg max_retries))
  ∧ analyze_text oracle max_retries = some (Except.error (exhaustMsg max_retries)) := by
  have h : retryGo oracle max_retries max_retries 0
      = some (Except.error (exhaustMsg max_retries)) :=
    retryGo_exhaust oracle max_retries max_retries 0 (by omega) hmax
      (fun i hi hi2 => hfail i (by omega) hi2)
  exact ⟨h, h⟩

/-- Witness for `retry_exhaust_message` at `max_retries = 1`. -/
theorem retry_exhaust_message_witness :
    analyze_image oracleC2 1 = some (Except.error (exhaustMsg 1))
  ∧ analyze_text oracleC2 1 = some (Except.error (exhaustMsg 1)) :=
  retry_exhaust_message oracleC2 1 (by omega)
    (fun i _ _ => ⟨"fallo de red 500", rfl⟩)

/-- C10: with `max_retries = 0` the loop guard `intento < max_retries` is false
at once: the body is never entered (the result does not depend on the oracle,
i.e. no request is performed), no exception is raised, and the Python function
returns `None` — modelled by `none`. -/
theorem retry_zero_attempts (oracle : Nat → Except String String) :
    analyze_image oracle 0 = none ∧ analyze_text oracle 0 = none :=
  ⟨rfl, rfl⟩

/-! ## Image normalizer (src/components/image_converter.py)

`ImageConverter.convert_to_webp` (lines 15-73).  The decoded image is
abstracted by its PIL mode string; the PIL WebP encoder is abstracted as
`encode : String → Nat → List Nat` giving the encoded bytes of the (fixed)
image once converted to a mode, at a quality. -/

/-- The color-mode conversion (lines 46-51):

    if img.mode in ('RGBA', 'LA', 'P'):
        if img.mode == 'P':
            img = img.convert('RGBA')
    elif img.mode not in ('RGB', 'RGBA'):
        img = img.convert('RGB')

returning the mode the encoder then receives. -/
def convertColorMode (mode : String) : String :=
  if mode = "RGBA" ∨ mode = "LA" ∨ mode = "P" then
    if mode = "P" then "RGBA" else mode
  else if ¬ (mode = "RGB" ∨ mode = "RGBA") then "RGB"
  else mode

/-- C7 counterexample: a luminance-alpha (`LA`) image falls into the first
branch but only `P` is converted there, so the encoder receives mode `LA`,
which is neither `RGB` nor `RGBA`. -/
theorem color_mode_cex :
    convertColorMode "LA" = "LA"
  ∧ convertColorMode "LA" ≠ "RGB"
  ∧ convertColorMode "LA" ≠ "RGBA" := by
  refine ⟨rfl, ?_, ?_⟩ <;> decide

/-- C7 (amended): palette (`P`) images are promoted to `RGBA`; `RGBA` and `LA`
pass through unchanged; every mode other than `RGB`, `RGBA`, `LA`, `P` is
converted to `RGB`.  The encoder therefore receives `RGB`, `RGBA` or `LA` —
not only the two modes the claim allows. -/
theorem color_mode_amended (m : String) :
    convertColorMode "P" = "RGBA"
  ∧ (m = "LA" → convertColorMode m = "LA")
  ∧ (m ≠ "RGB" → m ≠ "RGBA" → m ≠ "LA" → m ≠ "P" → convertColorMode m = "RGB")
  ∧ (convertColorMode m = "RGB" ∨ convertColorMode m = "RGBA"
      ∨ convertColorMode m = "LA") := by
  refine ⟨rfl, ?_, ?_, ?_⟩
  · intro h; subst h; rfl
  · intro h1 h2 h3 h4
    simp [convertColorMode, h1, h2, h3, h4]
  · unfold convertColorMode
    by_cases h1 : m = "RGBA" ∨ m = "LA" ∨ m = "P"
    · rcases h1 with h | h | h <;> subst h <;> simp
    · by_cases h2 : m = "RGB"
      · subst h2; simp
      · simp only [h1, if_neg]
        have : ¬ (m = "RGB" ∨ m = "RGBA") := by
          rintro (h | h)
          · exact h2 h
          · exact h1 (Or.inl h)
        simp [h1, this]

/-- Witness for `color_mode_amended` at the CMYK mode. -/
theorem color_mode_amended_witness :
    convertColorMode "P" = "RGBA" ∧ convertColorMode "CMYK" = "RGB" := by
  have h := color_mode_amended "CMYK"
  exact ⟨h.1, h.2.2.1 (by decide) (by decide) (by decide) (by decide)⟩

/-- The verbose size report printed at lines 69-71 (original vs. compressed
byte counts). -/
def sizeReport (original compressed : Nat) : String :=
  "Original: " ++ toString original ++ " → WebP: " ++ toString compressed

/-- `convert_to_webp` after decoding (lines 46-73): convert the color mode,
encode, then — only if `verbose` — compute the size report, whose
`compression_ratio` computation divides by `original_size` and would raise
`ZeroDivisionError` if the original were empty (an empty input is not a
decodable image, so `original_size > 0` for every real input).  The result is
the encoded bytes together with the log lines emitted. -/
def convert_to_webp (encode : String → Nat → List Nat) (mode : String)
    (quality : Nat) (original_size : Nat) (verbose : Bool) :
    Except String (List Nat × List String) :=
  let m := convertColorMode mode
  let output := encode m quality
  if verbose then
    if original_size = 0 then Except.error "ZeroDivisionError"
    else Except.ok (output, [sizeReport original_size output.length])
  else Except.ok (output, [])

/-- C9: for every decodable input image (hence `original_size > 0`) and every
quality, the bytes returned by `convert_to_webp` are the same with the verbose
size report enabled or disabled; the report only adds log output. -/
theorem verbose_noninterference (encode : String → Nat → List Nat)
    (mode : String) (quality : Nat) (original_size : Nat)
    (h : 0 < original_size) :
    ∃ out logV,
      convert_to_webp encode mode quality original_size true = Except.ok (out, logV)
    ∧ convert_to_webp encode mode quality original_size false = Except.ok (out, []) := by
  refine ⟨encode (convertColorMode mode) quality,
    [sizeReport original_size (encode (convertColorMode mode) quality).length], ?_, rfl⟩
  have h0 : original_size ≠ 0 := by omega
  simp [convert_to_webp, h0]

/-- Witness for `verbose_noninterference` on a concrete encoder and image. -/
theorem verbose_noninterference_witness :
    0 < 10
  ∧ ∃ out logV,
      convert_to_webp (fun _ _ => [1, 2, 3]) "P" 95 10 true = Except.ok (out, logV)
    ∧ convert_to_webp (fun _ _ => [1, 2, 3]) "P" 95 10 false = Except.ok (out, []) :=
  ⟨by omega, verbose_noninterference (fun _ _ => [1, 2, 3]) "P" 95 10 (by omega)⟩

/-! ## Response parser (src/components/ollama_analyzer.py lines 311-341)

`OllamaAnalyzer.parse_json_response` first tries `json.loads(content)`; on
failure it sweeps the text with the regex

    r'\x7b[^\x7b\x7d]*(?:\x7b[^\x7b\x7d]*\x7d[^\x7b\x7d]*)*\x7d'

(`re.findall`, leftmost non-overlapping matches) and returns the first match
that parses; if nothing parses it returns the sentinel dict
`{error: ..., contenido_original: content}` (keys spelled with the source's
Spanish names).  `json.loads` is Python's standard JSON decoder, external to
the repository; it is abstracted as `loads : String → Option α` throughout —
`none` models `json.JSONDecodeError`.

The regex above is deterministic on any input: the character classes exclude
both braces, so backtracking can never shorten them, and a candidate is
decided by a two-state scan — at nesting depth 1 a closing brace ends the
match and an opening brace enters depth 2; at depth 2 a second opening brace
(or end of input) kills the candidate. -/

/-- One regex candidate, scanned after its opening brace.  The `Bool` is the
depth flag: `false` at depth 1, `true` at depth 2.  On success, returns the
matched characters (up to and including the closing outer brace) and the rest
of the input. -/
def matchTail : Bool → List Char → Option (List Char × List Char)
  | _, [] => none
  | false, c :: rest =>
    if c = '}' then some (['}'], rest)
    else if c = '{' then
      match matchTail true rest with
      | some (m, r) => some ('{' :: m, r)
      | none => none
    else
      match matchTail false rest with
      | some (m, r) => some (c :: m, r)
      | none => none
  | true, c :: rest =>
    if c = '}' then
      match matchTail false rest with
      | some (m, r) => some ('}' :: m, r)
      | none => none
    else if c = '{' then none
    else
      match matchTail true rest with
      | some (m, r) => some (c :: m, r)
      | none => none

/-- A whole regex candidate at the current position: an opening brace followed
by a `matchTail` scan. -/
def matchCandidate : List Char → Option (List Char × List Char)
  | [] => none
  | c :: rest =>
    if c = '{' then
      match matchTail false rest with
      | some (m, r) => some ('{' :: m, r)
      | none => none
    else none

lemma matchTail_append :
    ∀ (l : List Char) (d : Bool) (m r : List Char),
      matchTail d l = some (m, r) → l = m ++ r := by
  intro l
  induction l with
  | nil => intro d m r h; simp [matchTail] at h
  | cons c rest ih =>
    intro d m r h
    cases d with
    | false =>
      simp only [matchTail] at h
      split_ifs at h with h1 h2
      · simp only [Option.some.injEq, Prod.mk.injEq] at h
        obtain ⟨hm, hr⟩ := h
        subst h1
        rw [← hm, ← hr]
        rfl
      · rcases hmt : matchTail true rest with _ | ⟨m', r'⟩ <;> rw [hmt] at h <;>
          simp at h
        obtain ⟨hm, hr⟩ := h
        subst h2 hm hr
        simpa using ih true m' r' hmt
      · rcases hmt : matchTail false rest with _ | ⟨m', r'⟩ <;> rw [hmt] at h <;>
          simp at h
        obtain ⟨hm, hr⟩ := h
        subst hm hr
        simpa using ih false m' r' hmt
    | true =>
      simp only [matchTail] at h
      split_ifs at h with h1 h2
      · rcases hmt : matchTail false rest with _ | ⟨m', r'⟩ <;> rw [hmt] at h <;>
          simp at h
        obtain ⟨hm, hr⟩ := h
        subst h1 hm hr
        simpa using ih false m' r' hmt
      · rcases hmt : matchTail true rest with _ | ⟨m', r'⟩ <;> rw [hmt] at h <;>
          simp at h
        obtain ⟨hm, hr⟩ := h
        subst hm hr
        simpa using ih true m' r' hmt

lemma matchCandidate_append {l m r : List Char}
    (h : matchCandidate l = some (m, r)) :
    l = m ++ r ∧ ∃ t, m = '{' :: t := by
  cases l with
  | nil => simp [matchCandidate] at h
  | cons c rest =>
    simp only [matchCandidate] at h
    split_ifs at h with h1
    rcases hmt : matchTail false rest with _ | ⟨m', r'⟩ <;> rw [hmt] at h <;>
      simp at h
    obtain ⟨hm, hr⟩ := h
    subst h1 hm hr
    exact ⟨by simpa using matchTail_append rest false m' r' hmt, m', rfl⟩

lemma matchCandidate_rest_lt {l m r : List Char}
    (h : matchCandidate l = some (m, r)) : r.length < l.length := by
  obtain ⟨happ, t, hm⟩ := matchCandidate_append h
  subst hm
  simp [happ]
  omega

/-- The model of `re.findall(json_pattern, content)`: scan left to right; at a
successful candidate record it and continue after it, otherwise advance one
character. -/
def findall : List Char → List (List Char)
  | [] => []
  | c :: rest =>
    match hm : matchCandidate (c :: rest) with
    | some (m, r) => m :: findall r
    | none => findall rest
termination_by l => l.length
decreasing_by
  · exact matchCandidate_rest_lt hm
  · simp

/-- The `for match in matches: try json.loads(match) ... continue` loop
(lines 331-335): the parse of the first candidate that parses. -/
def firstParsing {α : Type} (loads : String → Option α) :
    List (List Char) → Option α
  | [] => none
  | m :: ms =>
    match loads (String.mk m) with
    | some v => some v
    | none => firstParsing loads ms

/-- Result of `parse_json_response`: a parsed value, or the sentinel dict
`{error: ..., contenido_original: ...}` built at lines 338-341. -/
inductive ParseOutcome (α : Type) where
  | parsed (v : α)
  | unparsable (errorMsg : String) (contenido_original : String)
deriving DecidableEq

/-- `OllamaAnalyzer.parse_json_response` (lines 311-341), with `json.loads`
abstracted as `loads`. -/
def parse_json_response {α : Type} (loads : String → Option α)
    (content : String) : ParseOutcome α :=
  match loads content with
  | some v => ParseOutcome.parsed v
  | none =>
    match firstParsing loads (findall content.toList) with
    | some v => ParseOutcome.parsed v
    | none =>
      ParseOutcome.unparsable "No se pudo parsear la respuesta como JSON" content

/-! Spec-side characterisation of the candidates: brace-delimited, balanced,
with at most one level of nested braces. -/

/-- Brace-nesting contribution of one character. -/
def depthDelta (c : Char) : Int :=
  if c = '{' then 1 else if c = '}' then -1 else 0

/-- Brace-nesting depth change across a character list. -/
def depthOf (l : List Char) : Int := (l.map depthDelta).sum

/-- A brace-delimited chunk tolerating at most one level of nested braces:
an opening brace, an inner part, a closing brace; its braces balance, and
every proper non-empty prefix sits at depth 1 or 2. -/
def BalancedChunk (m : List Char) : Prop :=
  (∃ inner, m = '{' :: (inner ++ ['}']))
  ∧ depthOf m = 0
  ∧ ∀ q, q <+: m → q ≠ [] → q ≠ m → 1 ≤ depthOf q ∧ depthOf q ≤ 2

lemma depthOf_cons (c : Char) (l : List Char) :
    depthOf (c :: l) = depthDelta c + depthOf l := by
  simp [depthOf]

/-- Reference depth of the `matchTail` scan: 0 below a depth-1 position,
-1 below a depth-2 position. -/
def tailLow (d : Bool) : Int := if d then -1 else 0

lemma tailLow_true : tailLow true = -1 := rfl

lemma tailLow_false : tailLow false = 0 := rfl

lemma matchTail_shape :
    ∀ (l : List Char) (d : Bool) (m r : List Char),
      matchTail d l = some (m, r) →
      (∃ core, m = core ++ ['}'])
    ∧ depthOf m = tailLow d - 1
    ∧ ∀ q, q <+: m → q ≠ m → tailLow d ≤ depthOf q ∧ depthOf q ≤ tailLow d + 1 := by
  intro l
  induction l with
  | nil => intro d m r h; simp [matchTail] at h
  | cons c rest ih =>
    intro d m r h
    cases d with
    | false =>
      simp only [matchTail] at h
      split_ifs at h with h1 h2
      · simp only [Option.some.injEq, Prod.mk.injEq] at h
        obtain ⟨hm, hr⟩ := h
        subst h1
        rw [← hm]
        refine ⟨⟨[], rfl⟩, by decide, ?_⟩
        intro q hq hne
        have hq0 : q = [] := by
          rcases q with _ | ⟨x, q'⟩
          · rfl
          · obtain ⟨hx, hq'⟩ := List.cons_prefix_cons.mp hq
            rw [List.prefix_nil] at hq'
            subst hx hq'
            exact absurd rfl hne
        subst hq0
        decide
      · rcases hmt : matchTail true rest with _ | ⟨m', r'⟩ <;> rw [hmt] at h <;>
          simp at h
        obtain ⟨hm, hr⟩ := h
        subst h2 hm hr
        obtain ⟨⟨core, hcore⟩, hdep, hpre⟩ := ih true m' r' hmt
        refine ⟨⟨'{' :: core, by simp [hcore]⟩, ?_, ?_⟩
        · rw [depthOf_cons, hdep]; decide
        · intro q hq hne
          rcases q with _ | ⟨x, q'⟩
          · decide
          · obtain ⟨hx, hq'⟩ := List.cons_prefix_cons.mp hq
            subst hx
            have hb := hpre q' hq' (fun hh => hne (by rw [hh]))
            rw [depthOf_cons]
            have hd : depthDelta '{' = (1 : Int) := by decide
            rw [hd]
            simp only [tailLow_true, tailLow_false] at hb ⊢
            omega
      · rcases hmt : matchTail false rest with _ | ⟨m', r'⟩ <;> rw [hmt] at h <;>
          simp at h
        obtain ⟨hm, hr⟩ := h
        subst hm hr
        obtain ⟨⟨core, hcore⟩, hdep, hpre⟩ := ih false m' r' hmt
        have hd : depthDelta c = (0 : Int) := by simp [depthDelta, h1, h2]
        refine ⟨⟨c :: core, by simp [hcore]⟩, ?_, ?_⟩
        · rw [depthOf_cons, hdep, hd]; ring
        · intro q hq hne
          rcases q with _ | ⟨x, q'⟩
          · decide
          · obtain ⟨hx, hq'⟩ := List.cons_prefix_cons.mp hq
            subst hx
            have hb := hpre q' hq' (fun hh => hne (by rw [hh]))
            rw [depthOf_cons, hd]
            simp only [tailLow_true, tailLow_false] at hb ⊢
            omega
    | true =>
      simp only [matchTail] at h
      split_ifs at h with h1 h2
      · rcases hmt : matchTail false rest with _ | ⟨m', r'⟩ <;> rw [hmt] at h <;>
          simp at h
        obtain ⟨hm, hr⟩ := h
        subst h1 hm hr
        obtain ⟨⟨core, hcore⟩, hdep, hpre⟩ := ih false m' r' hmt
        refine ⟨⟨'}' :: core, by simp [hcore]⟩, ?_, ?_⟩
        · rw [depthOf_cons, hdep]; decide
        · intro q hq hne
          rcases q with _ | ⟨x, q'⟩
          · decide
          · obtain ⟨hx, hq'⟩ := List.cons_prefix_cons.mp hq
            subst hx
            have hb := hpre q' hq' (fun hh => hne (by rw [hh]))
            rw [depthOf_cons]
            have hd : depthDelta '}' = (-1 : Int) := by decide
            rw [hd]
            simp only [tailLow_true, tailLow_false] at hb ⊢
            omega
      · rcases hmt : matchTail true rest with _ | ⟨m', r'⟩ <;> rw [hmt] at h <;>
          simp at h
        obtain ⟨hm, hr⟩ := h
        subst hm hr
        obtain ⟨⟨core, hcore⟩, hdep, hpre⟩ := ih true m' r' hmt
        have hd : depthDelta c = (0 : Int) := by simp [depthDelta, h1, h2]
        refine ⟨⟨c :: core, by simp [hcore]⟩, ?_, ?_⟩
        · rw [depthOf_cons, hdep, hd]; ring
        · intro q hq hne
          rcases q with _ | ⟨x, q'⟩
          · decide
          · obtain ⟨hx, hq'⟩ := List.cons_prefix_cons.mp hq
            subst hx
            have hb := hpre q' hq' (fun hh => hne (by rw [hh]))
            rw [depthOf_cons, hd]
            simp only [tailLow_true, tailLow_false] at hb ⊢
            omega

lemma matchCandidate_balanced {l m r : List Char}
    (h : matchCandidate l = some (m, r)) : BalancedChunk m := by
  cases l with
  | nil => simp [matchCandidate] at h
  | cons c rest =>
    simp only [matchCandidate] at h
    split_ifs at h with h1
    rcases hmt : matchTail false rest with _ | ⟨m', r'⟩ <;> rw [hmt] at h <;>
      simp at h
    obtain ⟨hm, hr⟩ := h
    subst h1 hm hr
    obtain ⟨⟨core, hcore⟩, hdep, hpre⟩ := matchTail_shape rest false m' r' hmt
    refine ⟨⟨core, by simp [hcore]⟩, ?_, ?_⟩
    · rw [depthOf_cons, hdep]; decide
    · intro q hq hqnil hqne
      rcases q with _ | ⟨x, q'⟩
      · exact absurd rfl hqnil
      · obtain ⟨hx, hq'⟩ := List.cons_prefix_cons.mp hq
        subst hx
        have hb := hpre q' hq' (fun hh => hqne (by rw [hh]))
        rw [depthOf_cons]
        have hd : depthDelta '{' = (1 : Int) := by decide
        rw [hd]
        simp only [tailLow_true, tailLow_false] at hb ⊢
        omega

/-- Every candidate `re.findall` produces is an infix of the scanned text and
a balanced brace-delimited chunk with at most one level of nesting. -/
theorem findall_sound : ∀ (l m : List Char), m ∈ findall l →
    m <:+: l ∧ BalancedChunk m
  | [], m, hmem => by simp [findall] at hmem
  | c :: rest, m, hmem => by
    rw [findall] at hmem
    rcases hc : matchCandidate (c :: rest) with _ | ⟨m0, r⟩
    · rw [hc] at hmem
      have hrec := findall_sound rest m hmem
      exact ⟨List.infix_cons hrec.1, hrec.2⟩
    · rw [hc] at hmem
      rcases List.mem_cons.mp hmem with rfl | hmem2
      · obtain ⟨happ, _⟩ := matchCandidate_append hc
        refine ⟨?_, matchCandidate_balanced hc⟩
        rw [happ]
        exact (List.prefix_append m r).isInfix
      · have hrec := findall_sound r m hmem2
        obtain ⟨happ, _⟩ := matchCandidate_append hc
        refine ⟨hrec.1.trans ?_, hrec.2⟩
        rw [happ]
        exact (List.suffix_append m0 r).isInfix
termination_by l _ _ => l.length
decreasing_by
  · simp
  · exact matchCandidate_rest_lt hc

lemma firstParsing_cons {α : Type} (loads : String → Option α) (m0 : List Char)
    (ms : List (List Char)) :
    firstParsing loads (m0 :: ms) =
      match loads (String.mk m0) with
      | some v => some v
      | none => firstParsing loads ms := rfl

lemma firstParsing_cases {α : Type} (loads : String → Option α) :
    ∀ ms : List (List Char),
    (firstParsing loads ms = none ∧ ∀ m ∈ ms, loads (String.mk m) = none)
  ∨ (∃ pre m post, ms = pre ++ m :: post
      ∧ (∀ m' ∈ pre, loads (String.mk m') = none)
      ∧ ∃ v, loads (String.mk m) = some v ∧ firstParsing loads ms = some v) := by
  intro ms
  induction ms with
  | nil => left; simp [firstParsing]
  | cons m0 ms ih =>
    rcases hl : loads (String.mk m0) with _ | v
    · rcases ih with ⟨hfp, hall⟩ | ⟨pre, m, post, hms, hpre, v, hv, hfp⟩
      · left
        constructor
        · rw [firstParsing_cons, hl]
          exact hfp
        · intro m hm
          rcases List.mem_cons.mp hm with rfl | hm
          · exact hl
          · exact hall m hm
      · right
        refine ⟨m0 :: pre, m, post, by simp [hms], ?_, v, hv, ?_⟩
        · intro m' hm'
          rcases List.mem_cons.mp hm' with rfl | hm'
          · exact hl
          · exact hpre m' hm'
        · rw [firstParsing_cons, hl]
          exact hfp
    · right
      exact ⟨[], m0, ms, rfl, by simp, v, hl, by rw [firstParsing_cons, hl]⟩

/-- The behaviour of the regex fallback of `parse_json_response` once the
whole text has failed to parse: either the first parsable candidate — an
infix of the input, brace-delimited with at most one level of nesting — is
returned, or nothing parses and the sentinel carries the input verbatim. -/
def FallbackSpec {α : Type} (loads : String → Option α) (content : String) : Prop :=
  (∃ pre m post,
      findall content.toList = pre ++ m :: post
    ∧ (∀ m' ∈ pre, loads (String.mk m') = none)
    ∧ m <:+: content.toList
    ∧ BalancedChunk m
    ∧ ∃ v, loads (String.mk m) = some v
        ∧ parse_json_response loads content = ParseOutcome.parsed v)
  ∨ ((∀ m ∈ findall content.toList, loads (String.mk m) = none)
    ∧ parse_json_response loads content
        = ParseOutcome.unparsable "No se pudo parsear la respuesta como JSON" content)

lemma parse_json_response_eq {α : Type} (loads : String → Option α)
    (content : String) :
    parse_json_response loads content =
      match loads content with
      | some v => ParseOutcome.parsed v
      | none =>
        match firstParsing loads (findall content.toList) with
        | some v => ParseOutcome.parsed v
        | none =>
          ParseOutcome.unparsable "No se pudo parsear la respuesta como JSON"
            content := rfl

/-- C3: `parse_json_response` never raises (it is total by construction): if
the whole string parses, that value is returned; otherwise the first
brace-delimited candidate (at most one level of nested braces) of the regex
sweep that parses is returned; if nothing parses, the sentinel is returned
with the raw-content field equal to the input, character for character. -/
theorem parse_json_response_spec {α : Type} (loads : String → Option α)
    (content : String) :
    (∀ v, loads content = some v →
        parse_json_response loads content = ParseOutcome.parsed v)
  ∧ (loads content = none → FallbackSpec loads content) := by
  constructor
  · intro v hv
    rw [parse_json_response_eq, hv]
  · intro hnone
    rcases firstParsing_cases loads (findall content.toList) with
      ⟨hfp, hall⟩ | ⟨pre, m, post, hms, hpre, v, hv, hfp⟩
    · right
      refine ⟨hall, ?_⟩
      rw [parse_json_response_eq, hnone, hfp]
    · left
      have hmem : m ∈ findall content.toList := by rw [hms]; simp
      obtain ⟨hinf, hbal⟩ := findall_sound content.toList m hmem
      refine ⟨pre, m, post, hms, hpre, hinf, hbal, v, hv, ?_⟩
      rw [parse_json_response_eq, hnone, hfp]

/-! ## Work queue and processing loop (src/app2.py)

The shared state `app_state` (lines 28-45) holds the file list, the pending
queue, the current-file pointer and the aggregate counters `total`,
`procesados`, `exitosos`, `fallidos`, `no_anuncios`.  The operations are:

* `upload_file` (lines 180-237): append a fresh entry with status `'queued'`
  and `result = error = None`, bump `total`, enqueue its id.
* the worker (`queue_processor`, lines 145-171, driving `process_file`,
  lines 80-142), split into its two locked sections: `startStep` dequeues the
  head, marks the entry `'processing'` with `started_at`, and sets
  `current_file`; `finishStep` applies the analyzer outcome — the analyzer
  call `process_job_image`/`process_job_text` either returns a dict or raises,
  modelled as `Except String Record` — marking `'completed'` with the result
  or `'error'` with the stringified exception, and bumps the counters.
* `clear_queue` (lines 293-316): keep only `'processing'` entries, drain the
  queue, reset the stats to the remaining length.

Ids come from `get_file_id()` (millisecond timestamp plus 4 random bytes,
unique); the model allocates them from the counter `nextId`. -/

/-- The four `status` strings of a file entry. -/
inductive FileStatus where
  | queued
  | processing
  | completed
  | error
deriving DecidableEq

/-- The analyzer's returned dict: the `es_anuncio_empleo` discriminant plus
the remaining key-value pairs, opaque here. -/
structure Record where
  es_anuncio_empleo : Bool
  fields : List (String × String)
deriving DecidableEq

/-- One entry of `app_state['files']`. -/
structure FileEntry where
  id : Nat
  status : FileStatus
  startedAt : Option Nat
  completedAt : Option Nat
  result : Option Record
  error : Option String
  is_job : Option Bool
deriving DecidableEq

/-- The counters of `app_state['stats']`. -/
structure Stats where
  total : Nat
  procesados : Nat
  exitosos : Nat
  fallidos : Nat
  no_anuncios : Nat
deriving DecidableEq

/-- The shared `app_state`: file list, pending queue (entry ids),
`current_file` pointer, stats, and the id allocator. -/
structure AppState where
  files : List FileEntry
  queue : List Nat
  current : Option Nat
  stats : Stats
  nextId : Nat
deriving DecidableEq

/-- `app_state` at startup (lines 28-45). -/
def initState : AppState :=
  { files := [], queue := [], current := none,
    stats := { total := 0, procesados := 0, exitosos := 0, fallidos := 0,
               no_anuncios := 0 },
    nextId := 0 }

/-- The `for f in app_state['files']: if f['id'] == file_id: ...; break`
pattern: update the first entry satisfying `p`. -/
def updateFirst (p : FileEntry → Bool) (g : FileEntry → FileEntry) :
    List FileEntry → List FileEntry
  | [] => []
  | f :: fs => if p f then g f :: fs else f :: updateFirst p g fs

/-- The entry created by `upload_file` (lines 204-216). -/
def newEntry (id : Nat) : FileEntry :=
  { id := id, status := FileStatus.queued, startedAt := none,
    completedAt := none, result := none, error := none, is_job := none }

/-- `upload_file` (lines 180-237): append the entry, bump `total`, enqueue. -/
def upload_file (S : AppState) : AppState :=
  { S with files := S.files ++ [newEntry S.nextId],
           queue := S.queue ++ [S.nextId],
           stats := { S.stats with total := S.stats.total + 1 },
           nextId := S.nextId + 1 }

/-- First locked section of `process_file` (lines 87-93): mark `'processing'`
and record `started_at`. -/
def markProcessing (t : Nat) (f : FileEntry) : FileEntry :=
  { f with status := FileStatus.processing, startedAt := some t }

/-- The worker dequeues the head (line 151) and runs the first locked section
of `process_file`, which also sets `current_file`. -/
def startStep (t : Nat) (S : AppState) : AppState :=
  match S.queue with
  | [] => S
  | id :: rest =>
    { S with files := updateFirst (fun f => f.id == id) (markProcessing t) S.files,
             queue := rest,
             current := some id }

/-- Second locked section of `process_file` (lines 115-142): on success mark
`'completed'`, attach the result and the discriminant; on exception mark
`'error'` and attach the stringified error. -/
def applyOutcome (o : Except String Record) (t : Nat) (f : FileEntry) : FileEntry :=
  match o with
  | Except.ok datos =>
    { f with status := FileStatus.completed, completedAt := some t,
             result := some datos, is_job := some datos.es_anuncio_empleo }
  | Except.error e =>
    { f with status := FileStatus.error, completedAt := some t,
             error := some e }

/-- The stats updates of the same section: `procesados` always, then
`exitosos`/`no_anuncios` by discriminant on success and `fallidos` on
exception. -/
def bumpStats (o : Except String Record) (st : Stats) : Stats :=
  match o with
  | Except.ok datos =>
    if datos.es_anuncio_empleo then
      { st with procesados := st.procesados + 1, exitosos := st.exitosos + 1 }
    else
      { st with procesados := st.procesados + 1,
                no_anuncios := st.no_anuncios + 1 }
  | Except.error _ =>
    { st with procesados := st.procesados + 1, fallidos := st.fallidos + 1 }

/-- The worker finishes the current item with outcome `o` and clears
`current_file` (lines 115-142 and 163-167). -/
def finishStep (o : Except String Record) (t : Nat) (S : AppState) : AppState :=
  match S.current with
  | none => S
  | some id =>
    { S with files := updateFirst (fun f => f.id == id) (applyOutcome o t) S.files,
             stats := bumpStats o S.stats,
             current := none }

/-- `clear_queue` (lines 293-316): keep only `'processing'` entries, drain
the queue, reset stats with `total = len(remaining)`. -/
def clear_queue (S : AppState) : AppState :=
  { S with files := S.files.filter (fun f => f.status == FileStatus.processing),
           queue := [],
           stats := { total :=
                        (S.files.filter
                          (fun f => f.status == FileStatus.processing)).length,
                      procesados := 0, exitosos := 0, fallidos := 0,
                      no_anuncios := 0 } }

/-- The per-entry result/error invariant of the spec. -/
def StatusOk (f : FileEntry) : Prop :=
  match f.status with
  | FileStatus.queued => f.result = none ∧ f.error = none
  | FileStatus.processing => f.result = none ∧ f.error = none
  | FileStatus.completed => f.result.isSome ∧ f.error = none
  | FileStatus.error => f.error.isSome ∧ f.result = none

/-- One interleaving step of the system: a concurrent producer uploads, the
worker starts or finishes an item, or a client clears the queue. -/
inductive Step : AppState → AppState → Prop where
  | upload (S : AppState) : Step S (upload_file S)
  | start (S : AppState) (t : Nat) : Step S (startStep t S)
  | finish (S : AppState) (o : Except String Record) (t : Nat) :
      Step S (finishStep o t S)
  | clear (S : AppState) : Step S (clear_queue S)

/-- States reachable from startup. -/
inductive Reachable : AppState → Prop where
  | init : Reachable initState
  | step {S S' : AppState} : Reachable S → Step S S' → Reachable S'

lemma updateFirst_map_id {g : FileEntry → FileEntry}
    (hg : ∀ f, (g f).id = f.id) (p : FileEntry → Bool) :
    ∀ l : List FileEntry,
      (updateFirst p g l).map FileEntry.id = l.map FileEntry.id := by
  intro l
  induction l with
  | nil => rfl
  | cons f fs ih =>
    by_cases hp : p f = true
    · simp [updateFirst, hp, hg]
    · simp [updateFirst, hp, ih]

lemma mem_updateFirst {p : FileEntry → Bool} {g : FileEntry → FileEntry} :
    ∀ {l : List FileEntry} {f' : FileEntry}, f' ∈ updateFirst p g l →
      f' ∈ l ∨ ∃ f, f ∈ l ∧ p f = true ∧ f' = g f := by
  intro l
  induction l with
  | nil => intro f' h; simp [updateFirst] at h
  | cons f fs ih =>
    intro f' h
    by_cases hp : p f = true
    · rw [updateFirst, if_pos hp] at h
      rcases List.mem_cons.mp h with rfl | h
      · exact Or.inr ⟨f, List.mem_cons_self f fs, hp, rfl⟩
      · exact Or.inl (List.mem_cons_of_mem f h)
    · rw [updateFirst, if_neg hp] at h
      rcases List.mem_cons.mp h with rfl | h
      · exact Or.inl (List.mem_cons_self f' fs)
      · rcases ih h with h | ⟨f0, hf0, hpf0, heq⟩
        · exact Or.inl (List.mem_cons_of_mem f h)
        · exact Or.inr ⟨f0, List.mem_cons_of_mem f hf0, hpf0, heq⟩

lemma updateFirst_mem_target {g : FileEntry → FileEntry}
    (_hg : ∀ f, (g f).id = f.id) (target : Nat) :
    ∀ l : List FileEntry, (l.map FileEntry.id).Nodup →
    ∀ f' ∈ updateFirst (fun f => f.id == target) g l, f'.id = target →
      ∃ f, f ∈ l ∧ f.id = target ∧ f' = g f := by
  intro l
  induction l with
  | nil => intro _ f' h; simp [updateFirst] at h
  | cons f fs ih =>
    intro hnd f' hmem hid
    by_cases hp : (f.id == target) = true
    · rw [updateFirst, if_pos hp] at hmem
      rcases List.mem_cons.mp hmem with rfl | hmem
      · exact ⟨f, List.mem_cons_self f fs, by simpa using hp, rfl⟩
      · exfalso
        have hfid : f.id = target := by simpa using hp
        have hin : f'.id ∈ fs.map FileEntry.id := List.mem_map_of_mem _ hmem
        simp only [List.map_cons, List.nodup_cons] at hnd
        exact hnd.1 (by rw [hfid, ← hid]; exact hin)
    · rw [updateFirst, if_neg hp] at hmem
      rcases List.mem_cons.mp hmem with rfl | hmem
      · exact absurd (by simpa using hid) (by simpa using hp)
      · simp only [List.map_cons, List.nodup_cons] at hnd
        obtain ⟨f0, hf0, hfid, heq⟩ := ih hnd.2 f' hmem hid
        exact ⟨f0, List.mem_cons_of_mem f hf0, hfid, heq⟩

lemma updateFirst_mem_exists (g : FileEntry → FileEntry) (target : Nat) :
    ∀ l : List FileEntry, (∃ f ∈ l, f.id = target) →
      ∃ f, f ∈ l ∧ f.id = target
        ∧ g f ∈ updateFirst (fun f => f.id == target) g l := by
  intro l
  induction l with
  | nil => intro h; simp at h
  | cons f fs ih =>
    intro h
    by_cases hp : (f.id == target) = true
    · refine ⟨f, List.mem_cons_self f fs, by simpa using hp, ?_⟩
      rw [updateFirst, if_pos hp]
      exact List.mem_cons_self _ _
    · obtain ⟨f0, hf0, hfid⟩ := h
      rcases List.mem_cons.mp hf0 with rfl | hf0
      · exact absurd (by simpa using hfid) (by simpa using hp)
      · obtain ⟨f1, hf1, hfid1, hmem1⟩ := ih ⟨f0, hf0, hfid⟩
        refine ⟨f1, List.mem_cons_of_mem f hf1, hfid1, ?_⟩
        rw [updateFirst, if_neg hp]
        exact List.mem_cons_of_mem f hmem1

/-- The inductive invariant: id allocation, uniqueness, the queue and
current-file bookkeeping, and the per-entry result/error discipline. -/
structure Inv (S : AppState) : Prop where
  idsLt : ∀ f ∈ S.files, f.id < S.nextId
  queueLt : ∀ id ∈ S.queue, id < S.nextId
  currentLt : ∀ id, S.current = some id → id < S.nextId
  idsNodup : (S.files.map FileEntry.id).Nodup
  queueNodup : S.queue.Nodup
  currentNotQueued : ∀ id ∈ S.queue, S.current ≠ some id
  queuedOk : ∀ id ∈ S.queue, ∀ f ∈ S.files, f.id = id →
    f.status = FileStatus.queued ∧ f.result = none ∧ f.error = none
  currentOk : ∀ id, S.current = some id → ∀ f ∈ S.files, f.id = id →
    f.status = FileStatus.processing ∧ f.result = none ∧ f.error = none
  statusOk : ∀ f ∈ S.files, StatusOk f

lemma inv_init : Inv initState := by
  refine ⟨?_, ?_, ?_, ?_, ?_, ?_, ?_, ?_, ?_⟩ <;> simp [initState]

lemma inv_upload {S : AppState} (h : Inv S) : Inv (upload_file S) := by
  obtain ⟨h1, h2, h3, h4, h5, h6, h7, h8, h9⟩ := h
  refine ⟨?_, ?_, ?_, ?_, ?_, ?_, ?_, ?_, ?_⟩
  · intro f hf
    simp only [upload_file, List.mem_append, List.mem_singleton] at hf ⊢
    rcases hf with hf | rfl
    · exact Nat.lt_succ_of_lt (h1 f hf)
    · simp [newEntry]
  · intro id hid
    simp only [upload_file, List.mem_append, List.mem_singleton] at hid ⊢
    rcases hid with hid | rfl
    · exact Nat.lt_succ_of_lt (h2 id hid)
    · exact Nat.lt_succ_self _
  · intro id hcur
    simp only [upload_file] at hcur ⊢
    exact Nat.lt_succ_of_lt (h3 id hcur)
  · simp only [upload_file, List.map_append, List.map_cons, List.map_nil]
    rw [List.nodup_append]
    refine ⟨h4, by simp, ?_⟩
    intro x hx hx2
    simp only [newEntry, List.mem_singleton] at hx2
    obtain ⟨f, hf, hfx⟩ := List.mem_map.mp hx
    have := h1 f hf
    omega
  · simp only [upload_file]
    rw [List.nodup_append]
    refine ⟨h5, by simp, ?_⟩
    intro x hx hx2
    rw [List.mem_singleton] at hx2
    have := h2 x hx
    omega
  · intro id hid hcon
    simp only [upload_file, List.mem_append, List.mem_singleton] at hid hcon
    rcases hid with hid | rfl
    · exact h6 id hid hcon
    · have := h3 _ hcon; omega
  · intro id hid f hf hfid
    simp only [upload_file, List.mem_append, List.mem_singleton] at hid hf
    rcases hid with hid | rfl <;> rcases hf with hf | rfl
    · exact h7 id hid f hf hfid
    · exfalso
      have := h2 id hid
      simp only [newEntry] at hfid
      omega
    · exfalso
      have := h1 f hf
      omega
    · simp [newEntry]
  · intro id hcur f hf hfid
    simp only [upload_file, List.mem_append, List.mem_singleton] at hcur hf
    rcases hf with hf | rfl
    · exact h8 id hcur f hf hfid
    · exfalso
      have := h3 id hcur
      simp only [newEntry] at hfid
      omega
  · intro f hf
    simp only [upload_file, List.mem_append, List.mem_singleton] at hf
    rcases hf with hf | rfl
    · exact h9 f hf
    · simp [StatusOk, newEntry]

lemma inv_start {S : AppState} (t : Nat) (h : Inv S) : Inv (startStep t S) := by
  obtain ⟨h1, h2, h3, h4, h5, h6, h7, h8, h9⟩ := h
  cases hq : S.queue with
  | nil =>
    have he : startStep t S = S := by simp [startStep, hq]
    rw [he]
    exact ⟨h1, h2, h3, h4, h5, h6, h7, h8, h9⟩
  | cons id rest =>
    have hgid : ∀ f, (markProcessing t f).id = f.id := fun f => rfl
    have hidq : id ∈ S.queue := by rw [hq]; exact List.mem_cons_self _ _
    have hrest : ∀ id' ∈ rest, id' ∈ S.queue := by
      intro id' hid'
      rw [hq]
      exact List.mem_cons_of_mem _ hid'
    have hnodup : id ∉ rest := by
      have := h5
      rw [hq] at this
      exact (List.nodup_cons.mp this).1
    refine ⟨?_, ?_, ?_, ?_, ?_, ?_, ?_, ?_, ?_⟩
    · intro f hf
      simp only [startStep, hq] at hf ⊢
      rcases mem_updateFirst hf with hf | ⟨f0, hf0, _, rfl⟩
      · exact h1 f hf
      · rw [hgid]
        exact h1 f0 hf0
    · intro id' hid'
      simp only [startStep, hq] at hid' ⊢
      exact h2 id' (hrest id' hid')
    · intro id' hcur
      simp only [startStep, hq, Option.some.injEq] at hcur ⊢
      rw [← hcur]
      exact h2 id hidq
    · simp only [startStep, hq]
      rw [updateFirst_map_id hgid]
      exact h4
    · simp only [startStep, hq]
      have := h5
      rw [hq] at this
      exact (List.nodup_cons.mp this).2
    · intro id' hid'
      simp only [startStep, hq, ne_eq, Option.some.injEq] at hid' ⊢
      intro hcon
      subst hcon
      exact hnodup hid'
    · intro id' hid' f' hf' hfid
      simp only [startStep, hq] at hid' hf'
      have hidne : id' ≠ id := by
        intro hh
        subst hh
        exact hnodup hid'
      rcases mem_updateFirst hf' with hf' | ⟨f0, hf0, hp, rfl⟩
      · exact h7 id' (hrest id' hid') f' hf' hfid
      · exfalso
        have hp' : f0.id = id := by simpa using hp
        rw [hgid] at hfid
        exact hidne (by rw [← hfid, hp'])
    · intro id' hcur f' hf' hfid
      simp only [startStep, hq, Option.some.injEq] at hcur hf'
      subst hcur
      obtain ⟨f0, hf0, hfid0, heq⟩ :=
        updateFirst_mem_target hgid id S.files h4 f' hf' hfid
      subst heq
      have hq0 := h7 id hidq f0 hf0 hfid0
      simp [markProcessing, hq0.2.1, hq0.2.2]
    · intro f' hf'
      simp only [startStep, hq] at hf'
      rcases mem_updateFirst hf' with hf' | ⟨f0, hf0, hp, rfl⟩
      · exact h9 f' hf'
      · have hp' : f0.id = id := by simpa using hp
        have hq0 := h7 id hidq f0 hf0 hp'
        simp [StatusOk, markProcessing, hq0.2.1, hq0.2.2]

lemma inv_finish {S : AppState} (o : Except String Record) (t : Nat)
    (h : Inv S) : Inv (finishStep o t S) := by
  obtain ⟨h1, h2, h3, h4, h5, h6, h7, h8, h9⟩ := h
  cases hc : S.current with
  | none =>
    have he : finishStep o t S = S := by simp [finishStep, hc]
    rw [he]
    exact ⟨h1, h2, h3, h4, h5, h6, h7, h8, h9⟩
  | some id =>
    have hgid : ∀ f, (applyOutcome o t f).id = f.id := by
      intro f
      cases o <;> rfl
    refine ⟨?_, ?_, ?_, ?_, ?_, ?_, ?_, ?_, ?_⟩
    · intro f hf
      simp only [finishStep, hc] at hf ⊢
      rcases mem_updateFirst hf with hf | ⟨f0, hf0, _, rfl⟩
      · exact h1 f hf
      · rw [hgid]
        exact h1 f0 hf0
    · intro id' hid'
      simp only [finishStep, hc] at hid' ⊢
      exact h2 id' hid'
    · intro id' hcur
      simp only [finishStep, hc] at hcur
      exact absurd hcur (by simp)
    · simp only [finishStep, hc]
      rw [updateFirst_map_id hgid]
      exact h4
    · simp only [finishStep, hc]
      exact h5
    · intro id' hid'
      simp [finishStep, hc]
    · intro id' hid' f' hf' hfid
      simp only [finishStep, hc] at hid' hf'
      rcases mem_updateFirst hf' with hf' | ⟨f0, hf0, hp, rfl⟩
      · exact h7 id' hid' f' hf' hfid
      · exfalso
        have hp' : f0.id = id := by simpa using hp
        rw [hgid] at hfid
        exact h6 id' hid' (by rw [← hfid, hp']; exact hc)
    · intro id' hcur
      simp only [finishStep, hc] at hcur
      exact absurd hcur (by simp)
    · intro f' hf'
      simp only [finishStep, hc] at hf'
      rcases mem_updateFirst hf' with hf' | ⟨f0, hf0, hp, rfl⟩
      · exact h9 f' hf'
      · have hp' : f0.id = id := by simpa using hp
        have hcur0 := h8 id hc f0 hf0 hp'
        cases o with
        | ok datos => simp [StatusOk, applyOutcome, hcur0.2.2]
        | error e => simp [StatusOk, applyOutcome, hcur0.2.1]

lemma inv_clear {S : AppState} (h : Inv S) : Inv (clear_queue S) := by
  obtain ⟨h1, h2, h3, h4, h5, h6, h7, h8, h9⟩ := h
  refine ⟨?_, ?_, ?_, ?_, ?_, ?_, ?_, ?_, ?_⟩
  · intro f hf
    simp only [clear_queue] at hf ⊢
    exact h1 f (List.mem_of_mem_filter hf)
  · intro id hid
    simp [clear_queue] at hid
  · intro id hcur
    simp only [clear_queue] at hcur ⊢
    exact h3 id hcur
  · simp only [clear_queue]
    exact List.Nodup.sublist
      (List.Sublist.map FileEntry.id (List.filter_sublist S.files)) h4
  · simp [clear_queue]
  · intro id hid
    simp [clear_queue] at hid
  · intro id hid
    simp [clear_queue] at hid
  · intro id hcur f hf hfid
    simp only [clear_queue] at hcur hf
    exact h8 id hcur f (List.mem_of_mem_filter hf) hfid
  · intro f hf
    simp only [clear_queue] at hf
    exact h9 f (List.mem_of_mem_filter hf)

lemma inv_step {S S' : AppState} (h : Inv S) (hs : Step S S') : Inv S' := by
  cases hs with
  | upload => exact inv_upload h
  | start t => exact inv_start t h
  | finish o t => exact inv_finish o t h
  | clear => exact inv_clear h

lemma inv_reachable {S : AppState} (h : Reachable S) : Inv S := by
  induction h with
  | init => exact inv_init
  | step _ hs ih => exact inv_step ih hs

/-- C4: in every reachable state of the work-queue system, every Completed
entry has its result set and its error unset, every Failed (`'error'`) entry
has its error set and its result unset, and every Queued or Processing entry
has both unset. -/
theorem workitem_status_invariant (S : AppState) (h : Reachable S) :
    ∀ f ∈ S.files,
      (f.status = FileStatus.completed → f.result.isSome ∧ f.error = none)
    ∧ (f.status = FileStatus.error → f.error.isSome ∧ f.result = none)
    ∧ (f.status = FileStatus.queued ∨ f.status = FileStatus.processing →
        f.result = none ∧ f.error = none) := by
  intro f hf
  have hok := (inv_reachable h).statusOk f hf
  refine ⟨?_, ?_, ?_⟩
  · intro hst
    simp only [StatusOk, hst] at hok
    exact hok
  · intro hst
    simp only [StatusOk, hst] at hok
    exact hok
  · intro hst
    rcases hst with hst | hst <;> simp only [StatusOk, hst] at hok <;> exact hok

/-- The analyzer result used by the concrete runs below. -/
def recordW : Record := { es_anuncio_empleo := true, fields := [] }

/-- A concrete reachable state: one item uploaded, started and completed. -/
def stateW : AppState :=
  finishStep (Except.ok recordW) 2 (startStep 1 (upload_file initState))

/-- Its single entry after completion. -/
def entryW : FileEntry :=
  applyOutcome (Except.ok recordW) 2 (markProcessing 1 (newEntry 0))

lemma stateW_reachable : Reachable stateW :=
  Reachable.step
    (Reachable.step
      (Reachable.step Reachable.init (Step.upload initState))
      (Step.start (upload_file initState) 1))
    (Step.finish (startStep 1 (upload_file initState)) (Except.ok recordW) 2)

/-- Witness for `workitem_status_invariant` on a concrete run. -/
theorem workitem_status_invariant_witness :
    entryW ∈ stateW.files ∧ entryW.status = FileStatus.completed
  ∧ entryW.result.isSome ∧ entryW.error = none := by
  have hmem : entryW ∈ stateW.files := by decide
  have h :=
    (workitem_status_invariant stateW stateW_reachable entryW hmem).1 (by decide)
  exact ⟨hmem, by decide, h.1, h.2⟩

/-- C5: `clear_queue` keeps exactly the Processing entries, leaves every
Processing entry in place, drains the pending queue, and resets the stats so
`total` is the number of remaining entries and every other counter is zero. -/
theorem clear_semantics (S : AppState) :
    (clear_queue S).queue = []
  ∧ (∀ f, f ∈ (clear_queue S).files ↔
      (f ∈ S.files ∧ f.status = FileStatus.processing))
  ∧ (clear_queue S).stats.total = (clear_queue S).files.length
  ∧ (clear_queue S).stats.procesados = 0
  ∧ (clear_queue S).stats.exitosos = 0
  ∧ (clear_queue S).stats.fallidos = 0
  ∧ (clear_queue S).stats.no_anuncios = 0 := by
  refine ⟨rfl, ?_, rfl, rfl, rfl, rfl, rfl⟩
  intro f
  simp [clear_queue, List.mem_filter]

/-- A mixed state: one Processing entry, one Completed entry, one queued id. -/
def stateC5 : AppState :=
  { files := [markProcessing 1 (newEntry 0), newEntry 1],
    queue := [1],
    current := some 0,
    stats := { total := 2, procesados := 0, exitosos := 0, fallidos := 0,
               no_anuncios := 0 },
    nextId := 2 }

/-- Witness for `clear_semantics` on the mixed state. -/
theorem clear_semantics_witness :
    (clear_queue stateC5).queue = []
  ∧ markProcessing 1 (newEntry 0) ∈ (clear_queue stateC5).files
  ∧ (clear_queue stateC5).stats.total = 1 := by
  have h := clear_semantics stateC5
  refine ⟨h.1, (h.2.1 _).mpr ⟨by decide, by decide⟩, ?_⟩
  have h2 := h.2.2.1
  rw [h2]
  decide

/-! The worker loop `queue_processor` (lines 145-171): each iteration takes a
queued item, processes it, and — whatever the outcome — loops on.  A run of
the loop is a fold of single iterations. -/

/-- One loop iteration: nothing to do on an empty queue (the loop waits),
otherwise start the head item and finish it with the analyzer outcome. -/
def workerIter (o : Except String Record) (t : Nat) (S : AppState) : AppState :=
  match S.queue with
  | [] => S
  | _ :: _ => finishStep o t (startStep t S)

/-- A run of the worker loop: one iteration per analyzer outcome. -/
def runWorker : List (Except String Record) → Nat → AppState → AppState
  | [], _, S => S
  | o :: os, t, S => runWorker os (t + 1) (workerIter o t S)

lemma startStep_queue (t : Nat) (S : AppState) :
    (startStep t S).queue = S.queue.tail := by
  cases hq : S.queue <;> simp [startStep, hq]

lemma finishStep_queue (o : Except String Record) (t : Nat) (S : AppState) :
    (finishStep o t S).queue = S.queue := by
  cases hc : S.current <;> simp [finishStep, hc]

lemma workerIter_queue (o : Except String Record) (t : Nat) (S : AppState) :
    (workerIter o t S).queue.length = S.queue.length - 1 := by
  cases hq : S.queue with
  | nil => simp [workerIter, hq]
  | cons it rest => simp [workerIter, hq, finishStep_queue, startStep_queue]

lemma runWorker_queue (os : List (Except String Record)) :
    ∀ (t : Nat) (S : AppState),
      (runWorker os t S).queue.length = S.queue.length - os.length := by
  induction os with
  | nil => intro t S; simp [runWorker]
  | cons o os ih =>
    intro t S
    simp only [runWorker]
    rw [ih, workerIter_queue]
    simp only [List.length_cons]
    omega

/-- C6: when processing the current item raises any exception `e`, the item's
entry is marked `'error'` with the stringified exception attached, the
`fallidos` counter is bumped by exactly one, and the worker loop is not
terminated: any further run of the loop still consumes the whole remaining
queue. -/
theorem process_failure (S : AppState) (id : Nat) (e : String) (t : Nat)
    (hcur : S.current = some id) (f : FileEntry) (hf : f ∈ S.files)
    (hfid : f.id = id) :
    (finishStep (Except.error e) t S).stats.fallidos = S.stats.fallidos + 1
  ∧ (∃ f', f' ∈ (finishStep (Except.error e) t S).files ∧ f'.id = id
      ∧ f'.status = FileStatus.error ∧ f'.error = some e)
  ∧ ∀ os : List (Except String Record),
      os.length = (finishStep (Except.error e) t S).queue.length →
      (runWorker os (t + 1) (finishStep (Except.error e) t S)).queue = [] := by
  refine ⟨?_, ?_, ?_⟩
  · simp [finishStep, hcur, bumpStats]
  · obtain ⟨f0, hf0, hfid0, hmem0⟩ :=
      updateFirst_mem_exists (applyOutcome (Except.error e) t) id S.files
        ⟨f, hf, hfid⟩
    refine ⟨applyOutcome (Except.error e) t f0, ?_, ?_, rfl, rfl⟩
    · simp only [finishStep, hcur]
      exact hmem0
    · simpa [applyOutcome] using hfid0
  · intro os hos
    have hlen := runWorker_queue os (t + 1) (finishStep (Except.error e) t S)
    rw [hos] at hlen
    rw [Nat.sub_self] at hlen
    exact List.length_eq_zero.mp hlen

/-- A state whose single item is Processing, pointed to by `current_file`. -/
def stateC6 : AppState := startStep 1 (upload_file initState)

/-- Witness for `process_failure` on a concrete failing run. -/
theorem process_failure_witness :
    (finishStep (Except.error "boom") 2 stateC6).stats.fallidos
        = stateC6.stats.fallidos + 1
  ∧ (∃ f', f' ∈ (finishStep (Except.error "boom") 2 stateC6).files ∧ f'.id = 0
      ∧ f'.status = FileStatus.error ∧ f'.error = some "boom")
  ∧ (runWorker [] 3 (finishStep (Except.error "boom") 2 stateC6)).queue = [] := by
  have h := process_failure stateC6 0 "boom" 2 (by decide)
    (markProcessing 1 (newEntry 0)) (by decide) (by decide)
  exact ⟨h.1, h.2.1, h.2.2 [] (by decide)⟩

/-- A concrete toy `json.loads`: only accepts the three-character object. -/
def loadsW : String → Option Nat :=
  fun s => if s = String.mk ['{', 'a', '}'] then some 7 else none

/-- A concrete response: the object wrapped in prose. -/
def contentW : String := String.mk ['x', '{', 'a', '}', 'y']

/-- Witness for `parse_json_response_spec` at a concrete parser and content. -/
theorem parse_json_response_spec_witness :
    loadsW contentW = none ∧ FallbackSpec loadsW contentW :=
  ⟨by decide, (parse_json_response_spec loadsW contentW).2 (by decide)⟩

/-! ## Batch processor pause semantics (src/batch_image_processor.py)

`BatchMultiFormatProcessor`: `add_file` (lines 144-187) enqueues one file and
bumps `total`, `en_cola` and the per-type counter; the `process_queue` loop
(lines 350-423) busy-waits on `is_paused` at the top of every iteration
(lines 390-395) before dequeuing; `pause`/`resume` (lines 425-433) toggle the
flag.  One observable step of the loop is modelled by `processIter`: a poll of
the pause flag followed, only when not paused, by one dequeue-and-process. -/

/-- The two supported file types. -/
inductive FileKind where
  | image
  | text
deriving DecidableEq

/-- One queued file of the batch processor. -/
structure BatchItem where
  path : String
  kind : FileKind
  name : String
deriving DecidableEq

/-- The `stats` dict of the batch processor (lines 51-60). -/
structure BatchStats where
  total : Nat
  procesados : Nat
  exitosos : Nat
  fallidos : Nat
  no_anuncios : Nat
  en_cola : Nat
  imagenes : Nat
  textos : Nat
deriving DecidableEq

/-- One entry of `self.results`, as built by `_process_single_file`
(lines 290-348). -/
structure BatchResult where
  archivo : String
  exito : Bool
  es_anuncio : Bool
  datos : Option Record
  error : Option String
deriving DecidableEq

/-- The mutable state of `BatchMultiFormatProcessor`. -/
structure BatchState where
  queue : List BatchItem
  results : List BatchResult
  stats : BatchStats
  is_paused : Bool
  is_processing : Bool
deriving DecidableEq

/-- `add_file` (lines 144-187), after the existence/type checks succeed:
enqueue and bump `total`, `en_cola` and the per-type counter. -/
def add_file (it : BatchItem) (S : BatchState) : BatchState :=
  { S with
      queue := S.queue ++ [it],
      stats := { S.stats with
        total := S.stats.total + 1,
        en_cola := S.stats.en_cola + 1,
        imagenes := if it.kind = FileKind.image then S.stats.imagenes + 1
                    else S.stats.imagenes,
        textos := if it.kind = FileKind.image then S.stats.textos
                  else S.stats.textos + 1 } }

/-- `_process_single_file` (lines 290-348), with the analyzer call abstracted
as an outcome: the result record appended to `self.results` and the stats
counter it bumps. -/
def processSingle (o : Except String Record) (it : BatchItem)
    (st : BatchStats) : BatchResult × BatchStats :=
  match o with
  | Except.ok datos =>
    if datos.es_anuncio_empleo then
      ({ archivo := it.name, exito := true, es_anuncio := true,
         datos := some datos, error := none },
       { st with exitosos := st.exitosos + 1 })
    else
      ({ archivo := it.name, exito := true, es_anuncio := false,
         datos := some datos, error := none },
       { st with no_anuncios := st.no_anuncios + 1 })
  | Except.error e =>
    ({ archivo := it.name, exito := false, es_anuncio := false,
       datos := none, error := some e },
     { st with fallidos := st.fallidos + 1 })

/-- One observable iteration of the `process_queue` loop (lines 390-414): the
pause flag is checked first — while paused nothing is dequeued or processed —
otherwise the head item is dequeued (`en_cola -= 1`, `procesados += 1`),
processed with outcome `o`, and its result recorded. -/
def processIter (o : Except String Record) (S : BatchState) : BatchState :=
  if S.is_paused then S
  else
    match S.queue with
    | [] => S
    | it :: rest =>
      let st1 := { S.stats with en_cola := S.stats.en_cola - 1,
                                procesados := S.stats.procesados + 1 }
      let pr := processSingle o it st1
      { S with queue := rest, stats := pr.2, results := S.results ++ [pr.1] }

/-- `pause` (lines 425-428). -/
def pause (S : BatchState) : BatchState := { S with is_paused := true }

/-- `resume` (lines 430-433). -/
def resume (S : BatchState) : BatchState := { S with is_paused := false }

/-- C8: while the pause flag is set, a loop iteration dequeues and processes
nothing (the state is unchanged — the flag is checked before dequeuing), and
`add_file` still succeeds while paused: it appends the item to the queue,
bumps `total` and `en_cola`, and leaves the pause flag set. -/
theorem pause_semantics (S : BatchState) (o : Except String Record)
    (it : BatchItem) (h : S.is_paused = true) :
    processIter o S = S
  ∧ (add_file it S).queue = S.queue ++ [it]
  ∧ (add_file it S).stats.total = S.stats.total + 1
  ∧ (add_file it S).stats.en_cola = S.stats.en_cola + 1
  ∧ (add_file it S).is_paused = true := by
  refine ⟨?_, rfl, rfl, rfl, ?_⟩
  · simp [processIter, h]
  · simp [add_file, h]

/-- A concrete paused state with one queued item. -/
def stateC8 : BatchState :=
  { queue := [{ path := "a.png", kind := FileKind.image, name := "a.png" }],
    results := [],
    stats := { total := 1, procesados := 0, exitosos := 0, fallidos := 0,
               no_anuncios := 0, en_cola := 1, imagenes := 1, textos := 0 },
    is_paused := true,
    is_processing := true }

/-- Witness for `pause_semantics` on the concrete paused state. -/
theorem pause_semantics_witness :
    processIter (Except.error "down") stateC8 = stateC8
  ∧ (add_file { path := "b.txt", kind := FileKind.text, name := "b.txt" }
        stateC8).stats.total = stateC8.stats.total + 1 := by
  have h := pause_semantics stateC8 (Except.error "down")
    { path := "b.txt", kind := FileKind.text, name := "b.txt" } (by decide)
  exact ⟨h.1, h.2.2.1⟩

end JobAnalyzer
